import Mathlib

/-!
Verification of the Discord LLM bot (`src/main.py`): a shallow embedding of
the per-channel bounded conversation history, the message chunker, and the
`on_message` orchestrator, together with proofs of the specified properties.

Python strings are modelled as `List Char`; channel ids as `Nat`; the global
`conversation_history` dict as an association list from channel id to the
list of stored messages (a `deque(maxlen=15)` in the source, modelled as the
list of its elements oldest-first).  The remote completion API is abstracted
as a function from the request message list to `Except err reply`.
-/

set_option autoImplicit false

namespace DiscordBot

/-- A `{role, content}` message dict (`src/main.py` passim). -/
structure Msg where
  role : String
  content : List Char
  deriving DecidableEq, Repr

/-- The `conversation_history` module-level dict (`src/main.py` line 47),
keyed by channel id; each value models a `deque(maxlen=15)` oldest-first. -/
abbrev HistState := List (Nat × List Msg)

/-- Emptiness of the dict at process start (`conversation_history = {}`). -/
def emptyHist : HistState := []

/-- `channel_id in conversation_history` / `conversation_history[channel_id]`:
first binding for the key, if any. -/
def lookupH : HistState → Nat → Option (List Msg)
  | [], _ => none
  | (k, v) :: rest, ch => if k = ch then some v else lookupH rest ch

/-- Replace the value of the first binding for `ch` (the dict entry holds a
mutable deque in Python; updating it in place is modelled by rebinding). -/
def histUpdate : HistState → Nat → List Msg → HistState
  | [], _, _ => []
  | (k, v) :: rest, ch, nv => if k = ch then (k, nv) :: rest else (k, v) :: histUpdate rest ch nv

/-- `get_history(channel_id)` (`src/main.py` lines 49-52): create an empty
deque on first access, then return the channel's deque.  Returns the
(possibly extended) dict together with the returned sequence. -/
def get_history (s : HistState) (ch : Nat) : HistState × List Msg :=
  match lookupH s ch with
  | some h => (s, h)
  | none => (s ++ [(ch, [])], [])

/-- `deque(maxlen=15).append(m)`: add `m` on the right, discarding from the
left whatever exceeds the capacity 15. -/
def dequeAppend (h : List Msg) (m : Msg) : List Msg :=
  (h ++ [m]).drop ((h ++ [m]).length - 15)

/-- `add_to_history(channel_id, role, content)` (`src/main.py` lines 54-56). -/
def add_to_history (s : HistState) (ch : Nat) (role : String) (content : List Char) : HistState :=
  let p := get_history s ch
  histUpdate p.1 ch (dequeAppend p.2 ⟨role, content⟩)

/-- `clear_history(channel_id)` (`src/main.py` lines 58-60): clear the deque
only when the channel has a binding; otherwise do nothing. -/
def clear_history (s : HistState) (ch : Nat) : HistState :=
  match lookupH s ch with
  | some _ => histUpdate s ch []
  | none => s

/-- Folding a sequence of `(role, content)` appends into one channel. -/
def appendAll (s : HistState) (ch : Nat) : List (String × List Char) → HistState
  | [] => s
  | p :: rest => appendAll (add_to_history s ch p.1 p.2) ch rest

/-! ### The chunker (`split_message`, `src/main.py` lines 64-75) -/

/-- `text.rfind(c, 0, stop)` helper: index of the last occurrence of `c`
in `l` at positions `≥ i` of the original string, scanning `l` which sits at
offset `i`.  `none` models Python's `-1`. -/
def rfindAux : List Char → Char → Nat → Option Nat
  | [], _, _ => none
  | a :: rest, c, i =>
    match rfindAux rest c (i + 1) with
    | some j => some j
    | none => if a = c then some i else none

/-- `text.rfind(c, 0, stop)`: last index of `c` among positions `0..stop-1`. -/
def rfind (text : List Char) (c : Char) (stop : Nat) : Option Nat :=
  rfindAux (text.take stop) c 0

/-- The split position chosen by one loop iteration (`src/main.py` lines
69-71): the last newline before `limit`, or a hard cut at `limit`. -/
def splitIndex (text : List Char) (limit : Nat) : Nat :=
  match rfind text '\n' limit with
  | some i => i
  | none => limit

/-- One iteration of the `while` body (`src/main.py` lines 68-73): the chunk
appended and the remaining text. -/
def splitStep (text : List Char) (limit : Nat) : List Char × List Char :=
  (text.take (splitIndex text limit), text.drop (splitIndex text limit))

/-- The `while len(text) > limit` loop, with explicit fuel: each recursive
call is one iteration of the Python loop; `none` means the loop has not
finished within `fuel` iterations. -/
def splitGo : Nat → List Char → Nat → List (List Char) → Option (List (List Char))
  | 0, _, _, _ => none
  | fuel + 1, text, limit, chunks =>
    if limit < text.length then
      splitGo fuel (splitStep text limit).2 limit (chunks ++ [(splitStep text limit).1])
    else
      some (chunks ++ [text])

/-- `split_message(text, limit)` (`src/main.py` lines 64-75).  When the loop
makes progress every iteration shortens `text`, so `text.length + 1` units of
fuel are exhausted only if some iteration leaves `text` unchanged — in which
case the Python loop runs forever and the value is `none`. -/
def split_message (text : List Char) (limit : Nat) : Option (List (List Char)) :=
  splitGo (text.length + 1) text limit []

/-! ### The response orchestrator (`on_message`, `src/main.py` lines 120-160) -/

/-- Loop of `removeAll`, structurally recursive on fuel so that it reduces
definitionally; one unit of fuel per character consumed, so `l.length` fuel
always suffices. -/
def removeAllFuel : Nat → List Char → List Char → List Char
  | 0, _, l => l
  | fuel + 1, pat, l =>
    match l with
    | [] => []
    | c :: rest =>
      if pat ≠ [] ∧ pat.isPrefixOf (c :: rest) then
        removeAllFuel fuel pat (rest.drop (pat.length - 1))
      else
        c :: removeAllFuel fuel pat rest

/-- `str.replace(pat, '')` as used on `src/main.py` line 133: remove every
non-overlapping occurrence of `pat`, scanning left to right. -/
def removeAll (pat l : List Char) : List Char :=
  removeAllFuel l.length pat l

/-- ASCII whitespace stripped by `str.strip()`. -/
def isSpaceChar (c : Char) : Bool :=
  c = ' ' || c = '\t' || c = '\n' || c = '\r' || c = '\x0b' || c = '\x0c'

/-- `str.strip()`: drop leading and trailing whitespace. -/
def stripChars (l : List Char) : List Char :=
  ((l.dropWhile isSpaceChar).reverse.dropWhile isSpaceChar).reverse

/-- The literal `f'<@{bot.user.id}>'` mention token (`src/main.py` line 133). -/
def mentionToken (botId : Nat) : List Char :=
  '<' :: '@' :: (Nat.repr botId).toList ++ ['>']

/-- The stripped user input computed on `src/main.py` line 133. -/
def userInput (botId : Nat) (content : List Char) : List Char :=
  stripChars (removeAll (mentionToken botId) content)

/-- The fixed system prompt (`src/main.py` lines 81-84). -/
def system_msg : Msg :=
  ⟨"system", "You are a helpful, intelligent assistant on a Discord server. Keep responses concise unless asked for detail. Use markdown formatting.".toList⟩

/-- `messages = [system_msg] + list(history)` (`src/main.py` line 86): the
request body sent to the completion API. -/
def requestMessages (history : List Msg) : List Msg :=
  system_msg :: history

/-- The `except` branch's reply template (`src/main.py` line 97):
`f"**Error:** I encountered an issue connecting to the neural core ({e})."` -/
def errorTemplate (e : List Char) : List Char :=
  "**Error:** I encountered an issue connecting to the neural core (".toList
    ++ e ++ ").".toList

/-- The abstract remote completion call: request messages in, either a reply
text or a raised exception's description out. -/
abbrev ApiCall := List Msg → Except (List Char) (List Char)

/-- `generate_response(history)` (`src/main.py` lines 77-97), parameterised
by the outcome of `client.chat.completions.create` on the assembled request:
a successful reply is returned as is; any exception is caught and turned into
the templated error text. -/
def generate_response (history : List Msg) (call : ApiCall) : List Char :=
  match call (requestMessages history) with
  | Except.ok reply => reply
  | Except.error e => errorTemplate e

/-- An inbound message event as `on_message` observes it. -/
structure MessageEvent where
  authorIsBot : Bool
  mentionsBot : Bool
  isDM : Bool
  isReplyToBot : Bool
  channelId : Nat
  content : List Char
  deriving DecidableEq, Repr

/-- The observable outcome of one `on_message` invocation. -/
structure OnMessageResult where
  hist : HistState
  apiCalled : Bool
  aiText : Option (List Char)
  sentChunks : Option (List (List Char))
  processedCommands : Bool
  deriving DecidableEq, Repr

/-- `on_message(message)` (`src/main.py` lines 120-160).  `none` models the
invocation never returning (possible only through `split_message` looping
forever); otherwise the result records the final history dict, whether the
completion API was invoked, the generated text, the chunks dispatched as the
reply, and whether `bot.process_commands` was reached. -/
def on_message (botId : Nat) (s : HistState) (ev : MessageEvent) (call : ApiCall) :
    Option OnMessageResult :=
  if ev.authorIsBot then
    -- line 122-123: `if message.author.bot: return`
    some ⟨s, false, none, none, false⟩
  else if ev.mentionsBot || ev.isDM || ev.isReplyToBot then
    let input := userInput botId ev.content
    if input = [] then
      -- line 136-137: `if not user_input: return`
      some ⟨s, false, none, none, false⟩
    else
      -- line 140: append the user turn
      let s1 := add_to_history s ev.channelId "user" input
      -- line 145: `generate_response(get_history(channel_id))`
      let g := get_history s1 ev.channelId
      let ai := generate_response g.2 call
      -- line 148: append the assistant turn
      let s2 := add_to_history g.1 ev.channelId "assistant" ai
      -- lines 151-157: chunk and send, then line 160: process_commands
      match split_message ai 1900 with
      | some chunks => some ⟨s2, true, some ai, some chunks, true⟩
      | none => none
  else
    -- not triggered: fall through to line 160
    some ⟨s, false, none, none, true⟩

/-- A whole session: fold `on_message` over a list of events, each with the
API outcome its completion call would observe. -/
def processEvents (botId : Nat) (s : HistState) :
    List (MessageEvent × ApiCall) → Option HistState
  | [] => some s
  | (ev, call) :: rest =>
    match on_message botId s ev call with
    | some r => processEvents botId r.hist rest
    | none => none

/-- Roles that may ever be stored in a channel history. -/
def rolesOK (s : HistState) : Prop :=
  ∀ p ∈ s, ∀ m ∈ p.2, m.role = "user" ∨ m.role = "assistant"

instance (s : HistState) : Decidable (rolesOK s) := by
  unfold rolesOK; infer_instance

/-- The 16-message append scenario of the specification. -/
def msgs16 : List (String × List Char) :=
  [("user", "m1".toList), ("user", "m2".toList), ("user", "m3".toList),
   ("user", "m4".toList), ("user", "m5".toList), ("user", "m6".toList),
   ("user", "m7".toList), ("user", "m8".toList), ("user", "m9".toList),
   ("user", "m10".toList), ("user", "m11".toList), ("user", "m12".toList),
   ("user", "m13".toList), ("user", "m14".toList), ("user", "m15".toList),
   ("user", "m16".toList)]

/-- A text on which the chunker's `while` loop makes no progress. -/
def badText : List Char := '\n' :: List.replicate 1900 'a'

/-- The rightmost `k` elements of a list. -/
def lastN {α : Type _} (k : Nat) (l : List α) : List α :=
  l.drop (l.length - k)

/-- The history a subsequent `get_history` observes for channel `ch`. -/
def obs (s : HistState) (ch : Nat) : List Msg :=
  (lookupH s ch).getD []

/-! ## Lemmas about the history cache -/

theorem dequeAppend_eq_lastN (h : List Msg) (m : Msg) :
    dequeAppend h m = lastN 15 (h ++ [m]) := rfl

theorem lastN_length_le {α : Type _} (k : Nat) (l : List α) : (lastN k l).length ≤ k := by
  simp only [lastN, List.length_drop]
  omega

theorem lastN_of_length_le {α : Type _} {k : Nat} {l : List α} (h : l.length ≤ k) :
    lastN k l = l := by
  simp only [lastN]
  rw [Nat.sub_eq_zero_of_le h, List.drop_zero]

theorem lastN_concat_lastN {α : Type _} (k : Nat) (l : List α) (m : α) :
    lastN k (lastN k l ++ [m]) = lastN k (l ++ [m]) := by
  rcases le_or_lt l.length k with hk | hk
  · rw [lastN_of_length_le hk]
  · rcases Nat.eq_zero_or_pos k with hk0 | hk0
    · subst hk0
      simp [lastN, Nat.sub_zero, List.drop_length]
    · have hd : l.length - k ≤ l.length := Nat.sub_le _ _
      have hlen : (l.drop (l.length - k)).length = k := by
        rw [List.length_drop]; omega
      have e1 : lastN k l ++ [m] = (l.drop (l.length - k)) ++ [m] := rfl
      have e2 : lastN k ((l.drop (l.length - k)) ++ [m])
          = ((l.drop (l.length - k)) ++ [m]).drop 1 := by
        show _ = _
        simp only [lastN, List.length_append, hlen, List.length_cons, List.length_nil]
        congr 1
        omega
      have e3 : ((l.drop (l.length - k)) ++ [m]).drop 1 = l.drop (l.length - k + 1) ++ [m] := by
        rw [List.drop_append_of_le_length (by omega), List.drop_drop]
      have e4 : lastN k (l ++ [m]) = l.drop (l.length - k + 1) ++ [m] := by
        simp only [lastN, List.length_append, List.length_cons, List.length_nil]
        have hx : l.length + (0 + 1) - k = l.length - k + 1 := by omega
        rw [hx, List.drop_append_of_le_length (by omega)]
      rw [e1, e2, e3, e4]

theorem foldl_dequeAppend_lastN (msgs : List Msg) : ∀ l : List Msg,
    msgs.foldl dequeAppend (lastN 15 l) = lastN 15 (l ++ msgs) := by
  induction msgs with
  | nil => intro l; simp
  | cons m rest ih =>
    intro l
    simp only [List.foldl_cons]
    rw [dequeAppend_eq_lastN, lastN_concat_lastN, ih (l ++ [m])]
    simp

theorem lookupH_append_right (s : HistState) (ch : Nat) (v : List Msg)
    (h : lookupH s ch = none) : lookupH (s ++ [(ch, v)]) ch = some v := by
  induction s with
  | nil => simp [lookupH]
  | cons p rest ih =>
    simp only [lookupH, List.cons_append] at h ⊢
    by_cases hk : p.1 = ch
    · simp [hk] at h
    · simp only [hk, if_false] at h ⊢
      exact ih h

theorem lookupH_histUpdate_self {s : HistState} {ch : Nat} {v : List Msg} (nv : List Msg)
    (h : lookupH s ch = some v) : lookupH (histUpdate s ch nv) ch = some nv := by
  induction s with
  | nil => simp [lookupH] at h
  | cons p rest ih =>
    simp only [lookupH, histUpdate] at h ⊢
    by_cases hk : p.1 = ch
    · simp [hk, lookupH]
    · simp only [hk, if_false] at h ⊢
      simp only [lookupH, hk, if_false]
      exact ih h

theorem get_history_snd (s : HistState) (ch : Nat) :
    (get_history s ch).2 = obs s ch := by
  unfold get_history obs
  cases h : lookupH s ch <;> simp

theorem lookupH_get_history_fst (s : HistState) (ch : Nat) :
    lookupH (get_history s ch).1 ch = some (obs s ch) := by
  unfold get_history obs
  cases h : lookupH s ch with
  | none => simpa using lookupH_append_right s ch [] h
  | some v => simpa

theorem obs_get_history_fst (s : HistState) (ch : Nat) :
    obs (get_history s ch).1 ch = obs s ch := by
  unfold obs
  rw [lookupH_get_history_fst]
  rfl

theorem obs_add_to_history (s : HistState) (ch : Nat) (role : String) (content : List Char) :
    obs (add_to_history s ch role content) ch
      = dequeAppend (obs s ch) ⟨role, content⟩ := by
  show obs (histUpdate (get_history s ch).1 ch
      (dequeAppend (get_history s ch).2 ⟨role, content⟩)) ch = _
  rw [get_history_snd]
  unfold obs
  rw [lookupH_histUpdate_self _ (lookupH_get_history_fst s ch)]
  rfl

theorem obs_appendAll (prs : List (String × List Char)) : ∀ (s : HistState) (ch : Nat),
    obs (appendAll s ch prs) ch
      = prs.foldl (fun h p => dequeAppend h ⟨p.1, p.2⟩) (obs s ch) := by
  induction prs with
  | nil => intro s ch; simp [appendAll]
  | cons p rest ih =>
    intro s ch
    simp only [appendAll, List.foldl_cons]
    rw [ih, obs_add_to_history]

/-- Claim C1: for every channel, after any sequence of appends the history
holds exactly the most recent `min(n, 15)` appended `(role, content)` entries
in chronological order, its length never exceeds 15, and the oldest entry is
evicted first; appending the 16 user messages `m1`..`m16` to one channel
leaves exactly `m2`..`m16`. -/
theorem c1_history_fifo :
    (∀ (ch : Nat) (prs : List (String × List Char)),
        (get_history (appendAll emptyHist ch prs) ch).2
            = lastN 15 (prs.map fun p => Msg.mk p.1 p.2)
          ∧ (get_history (appendAll emptyHist ch prs) ch).2.length ≤ 15)
  ∧ (get_history (appendAll emptyHist 0 msgs16) 0).2
      = (msgs16.drop 1).map fun p => Msg.mk p.1 p.2 := by
  constructor
  · intro ch prs
    have key : (get_history (appendAll emptyHist ch prs) ch).2
        = lastN 15 (prs.map fun p => Msg.mk p.1 p.2) := by
      rw [get_history_snd, obs_appendAll]
      have h0 : obs emptyHist ch = lastN 15 ([] : List Msg) := rfl
      rw [h0, ← List.foldl_map (fun p : String × List Char => Msg.mk p.1 p.2) dequeAppend,
        foldl_dequeAppend_lastN]
      simp
    refine ⟨key, ?_⟩
    rw [key]
    exact lastN_length_le _ _
  · decide

/-- Claim C8: `clear_history` leaves the channel with an empty history as
observed by a subsequent `get_history`, and on a channel with no recorded
history it is a no-op. -/
theorem c8_clear_history (s : HistState) (ch : Nat) :
    (get_history (clear_history s ch) ch).2 = []
  ∧ (lookupH s ch = none → clear_history s ch = s) := by
  constructor
  · rw [get_history_snd]
    unfold clear_history
    cases h : lookupH s ch with
    | none => simp [obs, h]
    | some v => simp [obs, lookupH_histUpdate_self [] h]
  · intro h
    unfold clear_history
    rw [h]

/-- Witness for C8 at a concrete state: channel 0 is absent from the dict, so
clearing it is a no-op, and a subsequent get sees an empty sequence. -/
theorem c8_clear_history_witness :
    lookupH [((5 : Nat), [Msg.mk "user" ['h', 'i']])] 0 = none
  ∧ (get_history (clear_history [((5 : Nat), [Msg.mk "user" ['h', 'i']])] 0) 0).2 = []
  ∧ clear_history [((5 : Nat), [Msg.mk "user" ['h', 'i']])] 0
      = [((5 : Nat), [Msg.mk "user" ['h', 'i']])] :=
  ⟨by decide, (c8_clear_history _ 0).1, (c8_clear_history _ 0).2 (by decide)⟩

/-- Claim C9: `get_history` is idempotent — two calls with no intervening
append or clear return the same sequence and leave the same dict — it never
fails, and on first access it creates an empty sequence for the channel. -/
theorem c9_get_idempotent (s : HistState) (ch : Nat) :
    (get_history (get_history s ch).1 ch).2 = (get_history s ch).2
  ∧ (get_history (get_history s ch).1 ch).1 = (get_history s ch).1
  ∧ (lookupH s ch = none →
        (get_history s ch).2 = [] ∧ lookupH (get_history s ch).1 ch = some []) := by
  refine ⟨?_, ?_, ?_⟩
  · rw [get_history_snd, get_history_snd, obs_get_history_fst]
  · show (get_history (get_history s ch).1 ch).1 = _
    unfold get_history
    cases h : lookupH s ch with
    | none =>
      simp only [h]
      rw [lookupH_append_right s ch [] h]
    | some v => simp [h]
  · intro h
    constructor
    · rw [get_history_snd]
      simp [obs, h]
    · have := lookupH_get_history_fst s ch
      rwa [show obs s ch = [] by simp [obs, h]] at this

/-! ## Lemmas about the chunker -/

theorem rfindAux_eq_none {l : List Char} {c : Char} : ∀ i : Nat,
    rfindAux l c i = none ↔ c ∉ l := by
  induction l with
  | nil => intro i; simp [rfindAux]
  | cons a rest ih =>
    intro i
    simp only [rfindAux]
    cases hr : rfindAux rest c (i + 1) with
    | some j =>
      have hmem : c ∈ rest := by
        by_contra hc
        rw [(ih (i + 1)).mpr hc] at hr
        exact Option.noConfusion hr
      simp [hmem]
    | none =>
      have hnot : c ∉ rest := (ih (i + 1)).mp hr
      by_cases hac : a = c
      · simp [hac]
      · simp [hac, hnot, Ne.symm hac]

theorem rfindAux_eq_some {l : List Char} {c : Char} : ∀ {i k : Nat},
    rfindAux l c i = some k →
    i ≤ k ∧ k - i < l.length ∧ l[k - i]? = some c ∧ ∀ j, k - i < j → l[j]? ≠ some c := by
  induction l with
  | nil => intro i k h; simp [rfindAux] at h
  | cons a rest ih =>
    intro i k h
    simp only [rfindAux] at h
    cases hr : rfindAux rest c (i + 1) with
    | some j =>
      rw [hr] at h
      have hjk : j = k := by injection h
      subst hjk
      obtain ⟨h1, h2, h3, h4⟩ := ih hr
      refine ⟨by omega, by simp only [List.length_cons]; omega, ?_, ?_⟩
      · rw [show j - i = (j - (i + 1)) + 1 by omega, List.getElem?_cons_succ]
        exact h3
      · intro jj hjj
        cases jj with
        | zero => exact absurd hjj (by omega)
        | succ jj =>
          rw [List.getElem?_cons_succ]
          exact h4 jj (by omega)
    | none =>
      rw [hr] at h
      have hnot : c ∉ rest := (rfindAux_eq_none (i + 1)).mp hr
      by_cases hac : a = c
      · rw [if_pos hac] at h
        have hik : i = k := by injection h
        subst hik
        refine ⟨Nat.le_refl _, by simp, ?_, ?_⟩
        · simp [Nat.sub_self, List.getElem?_cons_zero, hac]
        · intro j hj hc
          cases j with
          | zero => exact absurd hj (by omega)
          | succ j =>
            rw [List.getElem?_cons_succ] at hc
            exact hnot (List.getElem?_mem hc)
      · rw [if_neg hac] at h
        exact Option.noConfusion h

theorem rfind_eq_none {text : List Char} {c : Char} {stop : Nat}
    (h : rfind text c stop = none) : ∀ j, j < stop → text[j]? ≠ some c := by
  have hmem : c ∉ text.take stop := (rfindAux_eq_none 0).mp h
  intro j hj hc
  have : (text.take stop)[j]? = some c := by
    rw [List.getElem?_take_of_lt hj]
    exact hc
  exact hmem (List.getElem?_mem this)

theorem rfind_eq_some {text : List Char} {c : Char} {stop i : Nat}
    (h : rfind text c stop = some i) :
    i < stop ∧ text[i]? = some c ∧ ∀ j, i < j → j < stop → text[j]? ≠ some c := by
  obtain ⟨_, h2, h3, h4⟩ := rfindAux_eq_some h
  simp only [Nat.sub_zero] at h2 h3 h4
  have hstop : i < stop := by
    have := List.length_take stop text
    omega
  refine ⟨hstop, ?_, ?_⟩
  · rw [← List.getElem?_take_of_lt hstop]
    exact h3
  · intro j hij hjstop hc
    refine h4 j hij ?_
    rw [List.getElem?_take_of_lt hjstop]
    exact hc

theorem splitIndex_le (text : List Char) (limit : Nat) : splitIndex text limit ≤ limit := by
  unfold splitIndex
  cases h : rfind text '\n' limit with
  | none => exact Nat.le_refl _
  | some i => exact Nat.le_of_lt (rfind_eq_some h).1

theorem splitGo_step {text : List Char} {limit : Nat} (fuel : Nat) (acc : List (List Char))
    (h : limit < text.length) :
    splitGo (fuel + 1) text limit acc
      = splitGo fuel (text.drop (splitIndex text limit)) limit
          (acc ++ [text.take (splitIndex text limit)]) := by
  simp [splitGo, splitStep, h]

theorem splitGo_done {text : List Char} {limit : Nat} (fuel : Nat) (acc : List (List Char))
    (h : ¬ limit < text.length) :
    splitGo (fuel + 1) text limit acc = some (acc ++ [text]) := by
  simp [splitGo, h]

theorem splitGo_flatten {limit : Nat} : ∀ (fuel : Nat) (text : List Char) acc cs,
    splitGo fuel text limit acc = some cs → cs.flatten = acc.flatten ++ text := by
  intro fuel
  induction fuel with
  | zero => intro text acc cs h; exact Option.noConfusion h
  | succ fuel ih =>
    intro text acc cs h
    by_cases hl : limit < text.length
    · rw [splitGo_step fuel acc hl] at h
      rw [ih _ _ _ h]
      simp [List.flatten_append, List.append_assoc, List.take_append_drop]
    · rw [splitGo_done fuel acc hl] at h
      have : acc ++ [text] = cs := by injection h
      subst this
      simp [List.flatten_append]

/-- Claim C2: concatenating, in order, all segments returned by
`split_message` reconstructs the original input text exactly. -/
theorem c2_split_flatten (text : List Char) (limit : Nat) (cs : List (List Char))
    (h : split_message text limit = some cs) : cs.flatten = text := by
  have := splitGo_flatten _ _ _ _ h
  simpa using this

/-- Witness for C2 at a concrete input: `"ab"` with limit 1 splits into
`["a", "b"]`, whose concatenation is `"ab"` again. -/
theorem c2_split_flatten_witness :
    split_message ['a', 'b'] 1 = some [['a'], ['b']]
  ∧ List.flatten [['a'], ['b']] = ['a', 'b'] :=
  ⟨by decide, c2_split_flatten ['a', 'b'] 1 [['a'], ['b']] (by decide)⟩

theorem rfindAux_cons_of_not_mem {rest : List Char} {c : Char} (a : Char) (i : Nat)
    (h : c ∉ rest) :
    rfindAux (a :: rest) c i = if a = c then some i else none := by
  have hr : rfindAux rest c (i + 1) = none := (rfindAux_eq_none _).mpr h
  simp only [rfindAux, hr]

theorem rfind_replicate_ne {n stop : Nat} {a c : Char} (h : ¬ c = a) :
    rfind (List.replicate n a) c stop = none := by
  unfold rfind
  exact (rfindAux_eq_none 0).mpr (by simp [List.take_replicate, List.mem_replicate, h])

theorem splitIndex_replicate {n limit : Nat} {a : Char} (h : ¬ '\n' = a) :
    splitIndex (List.replicate n a) limit = limit := by
  unfold splitIndex
  rw [rfind_replicate_ne h]

theorem splitGo_none_of_no_progress {text : List Char} {limit : Nat}
    (h0 : splitIndex text limit = 0) (hl : limit < text.length) :
    ∀ (fuel : Nat) (acc : List (List Char)), splitGo fuel text limit acc = none := by
  intro fuel
  induction fuel with
  | zero => intro acc; rfl
  | succ fuel ih =>
    intro acc
    rw [splitGo_step fuel acc hl, h0]
    simp only [List.drop_zero]
    exact ih _

/-- Claim C3 (the code is wrong here): the chunker's `while` loop does not
terminate on every input.  On `badText` — a newline followed by 1900 `'a'`s,
with the default limit 1900 — `rfind` returns index 0, so the loop body
appends an empty chunk and leaves `text` unchanged: the loop repeats the
identical state forever.  The empty-input edge case does hold. -/
theorem c3_split_nontermination :
    (0 : Nat) < 1900
  ∧ 1900 < badText.length
  ∧ splitStep badText 1900 = ([], badText)
  ∧ split_message badText 1900 = none
  ∧ split_message [] 1900 = some [[]] := by
  have htake : badText.take 1900 = '\n' :: List.replicate 1899 'a' := by
    show List.take 1900 ('\n' :: List.replicate 1900 'a') = _
    rw [show (1900 : Nat) = 1899 + 1 from rfl, List.take_succ_cons, List.take_replicate,
      show min 1899 (1899 + 1) = 1899 from by omega]
  have hrf : rfind badText '\n' 1900 = some 0 := by
    unfold rfind
    rw [htake]
    rw [rfindAux_cons_of_not_mem '\n' 0 (by rw [List.mem_replicate]; decide), if_pos rfl]
  have hsi : splitIndex badText 1900 = 0 := by
    unfold splitIndex
    rw [hrf]
  have hlen : badText.length = 1901 := by
    rw [show badText = '\n' :: List.replicate 1900 'a' from rfl, List.length_cons,
      List.length_replicate]
  have hlt : 1900 < badText.length := by omega
  refine ⟨by norm_num, hlt, ?_, ?_, by decide⟩
  · unfold splitStep
    rw [hsi, List.take_zero, List.drop_zero]
  · unfold split_message
    exact splitGo_none_of_no_progress hsi hlt _ _

theorem splitGo_dropLast_le {limit : Nat} : ∀ (fuel : Nat) (text : List Char) acc cs,
    (∀ c ∈ acc, c.length ≤ limit) → splitGo fuel text limit acc = some cs →
    ∀ c ∈ cs.dropLast, c.length ≤ limit := by
  intro fuel
  induction fuel with
  | zero => intro text acc cs _ h; exact Option.noConfusion h
  | succ fuel ih =>
    intro text acc cs hacc h
    by_cases hl : limit < text.length
    · rw [splitGo_step fuel acc hl] at h
      refine ih _ _ _ ?_ h
      intro c hc
      rcases List.mem_append.mp hc with h1 | h1
      · exact hacc c h1
      · rw [List.mem_singleton.mp h1]
        calc (text.take (splitIndex text limit)).length
            ≤ splitIndex text limit := by
              rw [List.length_take]; omega
          _ ≤ limit := splitIndex_le text limit
    · rw [splitGo_done fuel acc hl] at h
      have hcs : acc ++ [text] = cs := by injection h
      subst hcs
      rw [List.dropLast_concat]
      exact hacc

/-- Claim C4: every segment except possibly the final one has length at most
`limit`; when the remaining text exceeds `limit`, the cut position is the last
newline strictly before position `limit` when one exists and exactly `limit`
otherwise (the newline staying with the remainder); and a 4000-character
newline-free string with limit 1900 yields segments of lengths 1900, 1900
and 200. -/
theorem c4_segment_bounds :
    (∀ (text : List Char) (limit : Nat) (cs : List (List Char)),
        split_message text limit = some cs →
        ∀ chunk ∈ cs.dropLast, chunk.length ≤ limit)
  ∧ (∀ (text : List Char) (limit : Nat), limit < text.length →
        splitStep text limit
            = (text.take (splitIndex text limit), text.drop (splitIndex text limit))
          ∧ ((splitIndex text limit < limit
                ∧ text[splitIndex text limit]? = some '\n'
                ∧ ∀ j, j < limit → text[j]? = some '\n' → j ≤ splitIndex text limit)
             ∨ ((∀ j, j < limit → text[j]? ≠ some '\n')
                ∧ splitIndex text limit = limit)))
  ∧ split_message (List.replicate 4000 'x') 1900
      = some [List.replicate 1900 'x', List.replicate 1900 'x', List.replicate 200 'x']
  ∧ (List.replicate 1900 'x' : List Char).length = 1900
  ∧ (List.replicate 200 'x' : List Char).length = 200 := by
  refine ⟨?_, ?_, ?_, by rw [List.length_replicate], by rw [List.length_replicate]⟩
  · intro text limit cs h
    exact splitGo_dropLast_le _ _ _ _ (by intro c hc; exact absurd hc (List.not_mem_nil c)) h
  · intro text limit _
    refine ⟨rfl, ?_⟩
    cases h : rfind text '\n' limit with
    | some i =>
      have hsi : splitIndex text limit = i := by
        unfold splitIndex
        rw [h]
      obtain ⟨h1, h2, h3⟩ := rfind_eq_some h
      rw [hsi]
      refine Or.inl ⟨h1, h2, ?_⟩
      intro j hj hnl
      by_contra hij
      exact h3 j (by omega) hj hnl
    | none =>
      have hsi : splitIndex text limit = limit := by
        unfold splitIndex
        rw [h]
      rw [hsi]
      exact Or.inr ⟨rfind_eq_none h, rfl⟩
  · have hx : ¬ '\n' = 'x' := by decide
    unfold split_message
    rw [List.length_replicate]
    rw [splitGo_step 4000 [] (by rw [List.length_replicate]; omega)]
    rw [splitIndex_replicate hx, List.take_replicate, List.drop_replicate]
    rw [show min 1900 4000 = 1900 from by omega, show (4000 : Nat) - 1900 = 2100 from by omega]
    rw [show (4000 : Nat) = 3999 + 1 from rfl]
    rw [splitGo_step 3999 _ (by rw [List.length_replicate]; omega)]
    rw [splitIndex_replicate hx, List.take_replicate, List.drop_replicate]
    rw [show min 1900 2100 = 1900 from by omega, show (2100 : Nat) - 1900 = 200 from by omega]
    rw [show (3999 : Nat) = 3998 + 1 from rfl]
    rw [splitGo_done 3998 _ (by rw [List.length_replicate]; omega)]
    rfl

/-- Witness for C4 at concrete inputs: `"abc"` with limit 1 has all
non-final segments of length at most 1, and on `"x\ny"` with limit 1 the
search window contains no newline so the cut is a hard cut at 1. -/
theorem c4_segment_bounds_witness :
    split_message ['a', 'b', 'c'] 1 = some [['a'], ['b'], ['c']]
  ∧ (∀ chunk ∈ [['a'], ['b'], ['c']].dropLast, List.length chunk ≤ 1)
  ∧ (1 : Nat) < (['x', '\n', 'y'] : List Char).length
  ∧ (splitStep ['x', '\n', 'y'] 1
        = (List.take (splitIndex ['x', '\n', 'y'] 1) ['x', '\n', 'y'],
           List.drop (splitIndex ['x', '\n', 'y'] 1) ['x', '\n', 'y'])
      ∧ ((splitIndex ['x', '\n', 'y'] 1 < 1
            ∧ (['x', '\n', 'y'] : List Char)[splitIndex ['x', '\n', 'y'] 1]? = some '\n'
            ∧ ∀ j, j < 1 → (['x', '\n', 'y'] : List Char)[j]? = some '\n'
                → j ≤ splitIndex ['x', '\n', 'y'] 1)
         ∨ ((∀ j, j < 1 → (['x', '\n', 'y'] : List Char)[j]? ≠ some '\n')
            ∧ splitIndex ['x', '\n', 'y'] 1 = 1))) :=
  ⟨by decide, c4_segment_bounds.1 ['a', 'b', 'c'] 1 [['a'], ['b'], ['c']] (by decide),
    by decide, c4_segment_bounds.2.1 ['x', '\n', 'y'] 1 (by decide)⟩

/-- Witness for C9 at a concrete state: channel 2 is initially absent. -/
theorem c9_get_idempotent_witness :
    (get_history (get_history ([] : HistState) 2).1 2).2 = (get_history ([] : HistState) 2).2
  ∧ lookupH ([] : HistState) 2 = none
  ∧ (get_history ([] : HistState) 2).2 = []
  ∧ lookupH (get_history ([] : HistState) 2).1 2 = some [] :=
  ⟨(c9_get_idempotent [] 2).1, by decide,
    ((c9_get_idempotent [] 2).2.2 (by decide)).1,
    ((c9_get_idempotent [] 2).2.2 (by decide)).2⟩

/-! ## Lemmas about the orchestrator -/

theorem dequeAppend_getLast (h : List Msg) (m : Msg) :
    (dequeAppend h m).getLast? = some m := by
  unfold dequeAppend
  have hle : (h ++ [m]).length - 15 ≤ h.length := by
    simp only [List.length_append, List.length_cons, List.length_nil]
    omega
  rw [List.drop_append_of_le_length hle]
  exact List.getLast?_concat _

theorem on_message_eligible {botId : Nat} {s : HistState} {ev : MessageEvent} {call : ApiCall}
    {r : OnMessageResult}
    (hb : ev.authorIsBot = false)
    (ht : (ev.mentionsBot || ev.isDM || ev.isReplyToBot) = true)
    (hi : userInput botId ev.content ≠ [])
    (hr : on_message botId s ev call = some r) :
    r.hist = add_to_history
        (get_history (add_to_history s ev.channelId "user" (userInput botId ev.content))
          ev.channelId).1 ev.channelId "assistant"
        (generate_response
          (get_history (add_to_history s ev.channelId "user" (userInput botId ev.content))
            ev.channelId).2 call)
  ∧ r.apiCalled = true
  ∧ r.aiText = some (generate_response
        (get_history (add_to_history s ev.channelId "user" (userInput botId ev.content))
          ev.channelId).2 call)
  ∧ r.sentChunks = split_message (generate_response
        (get_history (add_to_history s ev.channelId "user" (userInput botId ev.content))
          ev.channelId).2 call) 1900
  ∧ r.processedCommands = true := by
  set ai := generate_response
    (get_history (add_to_history s ev.channelId "user" (userInput botId ev.content))
      ev.channelId).2 call with hai
  unfold on_message at hr
  rw [if_neg (show ¬ ev.authorIsBot = true by simp [hb]), if_pos ht] at hr
  simp only [if_neg hi] at hr
  rw [← hai] at hr
  cases hs : split_message ai 1900 with
  | none =>
    rw [hs] at hr
    exact absurd hr (by simp)
  | some chunks =>
    rw [hs] at hr
    have hr' := Option.some.inj hr
    subst hr'
    exact ⟨rfl, rfl, rfl, rfl, rfl⟩

/-- Claim C5: when the remote completion call fails with any exception, the
error is not propagated: `generate_response` returns the templated error text
embedding the failure description, exactly that text is appended to the
channel history as the assistant turn, and that text is what gets chunked
and sent as the reply. -/
theorem c5_api_failure (botId : Nat) (s : HistState) (ev : MessageEvent) (e : List Char)
    (h : List Msg) (r : OnMessageResult)
    (hb : ev.authorIsBot = false)
    (ht : (ev.mentionsBot || ev.isDM || ev.isReplyToBot) = true)
    (hi : userInput botId ev.content ≠ [])
    (hr : on_message botId s ev (fun _ => Except.error e) = some r) :
    generate_response h (fun _ => Except.error e) = errorTemplate e
  ∧ r.aiText = some (errorTemplate e)
  ∧ (obs r.hist ev.channelId).getLast? = some ⟨"assistant", errorTemplate e⟩
  ∧ r.sentChunks = split_message (errorTemplate e) 1900 := by
  have hgen : ∀ hist : List Msg,
      generate_response hist (fun _ => Except.error e) = errorTemplate e := fun _ => rfl
  obtain ⟨hhist, _, hai, hsent, _⟩ := on_message_eligible hb ht hi hr
  refine ⟨hgen h, ?_, ?_, ?_⟩
  · rw [hai, hgen]
  · rw [hhist, hgen, obs_add_to_history]
    exact dequeAppend_getLast _ _
  · rw [hsent, hgen]

/-- Witness for C5 at a concrete input: user `hello` mentioning the bot in
channel 3, with an API that raises `boom`. -/
theorem c5_api_failure_witness :
    on_message 7 emptyHist ⟨false, true, false, false, 3, "<@7> hello".toList⟩
        (fun _ => Except.error "boom".toList)
      = some ⟨[(3, [⟨"user", "hello".toList⟩, ⟨"assistant", errorTemplate "boom".toList⟩])],
          true, some (errorTemplate "boom".toList), some [errorTemplate "boom".toList], true⟩
  ∧ (generate_response [] (fun _ => Except.error "boom".toList) = errorTemplate "boom".toList
      ∧ (⟨[(3, [⟨"user", "hello".toList⟩, ⟨"assistant", errorTemplate "boom".toList⟩])],
          true, some (errorTemplate "boom".toList), some [errorTemplate "boom".toList], true⟩
            : OnMessageResult).aiText = some (errorTemplate "boom".toList)
      ∧ (obs (⟨[(3, [⟨"user", "hello".toList⟩, ⟨"assistant", errorTemplate "boom".toList⟩])],
          true, some (errorTemplate "boom".toList), some [errorTemplate "boom".toList], true⟩
            : OnMessageResult).hist 3).getLast? = some ⟨"assistant", errorTemplate "boom".toList⟩
      ∧ (⟨[(3, [⟨"user", "hello".toList⟩, ⟨"assistant", errorTemplate "boom".toList⟩])],
          true, some (errorTemplate "boom".toList), some [errorTemplate "boom".toList], true⟩
            : OnMessageResult).sentChunks = split_message (errorTemplate "boom".toList) 1900) :=
  ⟨by decide,
    c5_api_failure 7 emptyHist ⟨false, true, false, false, 3, "<@7> hello".toList⟩
      "boom".toList [] _ rfl rfl (by decide) (by decide)⟩

/-- Claim C6: an ineligible message — author is a bot, or the text left after
stripping the mention token and trimming whitespace is empty — is processed
with no side effects: the history dict is unchanged, no completion call is
made, and no reply is sent. -/
theorem c6_ineligible_no_effects (botId : Nat) (s : HistState) (ev : MessageEvent)
    (call : ApiCall) (r : OnMessageResult)
    (hin : ev.authorIsBot = true ∨ userInput botId ev.content = [])
    (hr : on_message botId s ev call = some r) :
    r.hist = s ∧ r.apiCalled = false ∧ r.aiText = none ∧ r.sentChunks = none := by
  unfold on_message at hr
  by_cases hb : ev.authorIsBot = true
  · rw [if_pos hb] at hr
    have hr' := Option.some.inj hr
    subst hr'
    exact ⟨rfl, rfl, rfl, rfl⟩
  · have hi : userInput botId ev.content = [] := by
      rcases hin with h1 | h1
      · exact absurd h1 hb
      · exact h1
    rw [if_neg hb] at hr
    by_cases htr : (ev.mentionsBot || ev.isDM || ev.isReplyToBot) = true
    · rw [if_pos htr] at hr
      simp only [if_pos hi] at hr
      have hr' := Option.some.inj hr
      subst hr'
      exact ⟨rfl, rfl, rfl, rfl⟩
    · rw [if_neg htr] at hr
      have hr' := Option.some.inj hr
      subst hr'
      exact ⟨rfl, rfl, rfl, rfl⟩

/-- Witness for C6 at a concrete input: a message from a bot author. -/
theorem c6_ineligible_no_effects_witness :
    on_message 7 [((4 : Nat), [Msg.mk "user" ['y', 'o']])]
        ⟨true, true, false, false, 4, ['h', 'i']⟩ (fun _ => Except.ok ['o', 'k'])
      = some ⟨[((4 : Nat), [Msg.mk "user" ['y', 'o']])], false, none, none, false⟩
  ∧ ((⟨[((4 : Nat), [Msg.mk "user" ['y', 'o']])], false, none, none, false⟩
        : OnMessageResult).hist = [((4 : Nat), [Msg.mk "user" ['y', 'o']])]
      ∧ (⟨[((4 : Nat), [Msg.mk "user" ['y', 'o']])], false, none, none, false⟩
          : OnMessageResult).apiCalled = false
      ∧ (⟨[((4 : Nat), [Msg.mk "user" ['y', 'o']])], false, none, none, false⟩
          : OnMessageResult).aiText = none
      ∧ (⟨[((4 : Nat), [Msg.mk "user" ['y', 'o']])], false, none, none, false⟩
          : OnMessageResult).sentChunks = none) :=
  ⟨by decide,
    c6_ineligible_no_effects 7 [((4 : Nat), [Msg.mk "user" ['y', 'o']])]
      ⟨true, true, false, false, 4, ['h', 'i']⟩ (fun _ => Except.ok ['o', 'k']) _
      (Or.inl rfl) (by decide)⟩

/-- Counterexample to claim C7 as stated: for a message whose author is a
bot, `on_message` returns on line 123 before ever reaching
`bot.process_commands` on line 160 — command dispatch is not invoked for
every inbound event. -/
theorem c7_counterexample :
    (on_message 7 emptyHist ⟨true, false, false, false, 1, ['h', 'i']⟩
        (fun _ => Except.ok ['o', 'k'])).map OnMessageResult.processedCommands
      = some false := by decide

/-- Claim C7 as amended: for every completed `on_message` invocation,
standard command dispatch is reached exactly when the author is not a bot
and, if the message triggered the LLM flow, the stripped user text was
non-empty; the early returns for bot authors and for empty stripped input
skip `process_commands`. -/
theorem c7_amended_dispatch (botId : Nat) (s : HistState) (ev : MessageEvent)
    (call : ApiCall) (r : OnMessageResult)
    (hr : on_message botId s ev call = some r) :
    r.processedCommands = true
      ↔ (ev.authorIsBot = false
          ∧ ((ev.mentionsBot || ev.isDM || ev.isReplyToBot) = true →
               userInput botId ev.content ≠ [])) := by
  unfold on_message at hr
  by_cases hb : ev.authorIsBot = true
  · rw [if_pos hb] at hr
    have hr' := Option.some.inj hr
    subst hr'
    simp [hb]
  · have hb' : ev.authorIsBot = false := by
      revert hb
      cases ev.authorIsBot <;> simp
    rw [if_neg hb] at hr
    by_cases htr : (ev.mentionsBot || ev.isDM || ev.isReplyToBot) = true
    · rw [if_pos htr] at hr
      by_cases hi : userInput botId ev.content = []
      · simp only [if_pos hi] at hr
        have hr' := Option.some.inj hr
        subst hr'
        simp [hb', htr, hi]
      · simp only [if_neg hi] at hr
        cases hs : split_message (generate_response
            (get_history (add_to_history s ev.channelId "user" (userInput botId ev.content))
              ev.channelId).2 call) 1900 with
        | none =>
          rw [hs] at hr
          exact absurd hr (by simp)
        | some chunks =>
          rw [hs] at hr
          have hr' := Option.some.inj hr
          subst hr'
          simp [hb', hi]
    · rw [if_neg htr] at hr
      have hr' := Option.some.inj hr
      subst hr'
      simp [hb', htr]

/-- Witness for the amended C7 at a concrete input: a non-bot message that
does not trigger the LLM flow still reaches command dispatch. -/
theorem c7_amended_dispatch_witness :
    on_message 7 emptyHist ⟨false, false, false, false, 2, ['h', 'i']⟩
        (fun _ => Except.ok ['o', 'k'])
      = some ⟨emptyHist, false, none, none, true⟩
  ∧ ((⟨emptyHist, false, none, none, true⟩ : OnMessageResult).processedCommands = true
      ↔ (false = false ∧ ((false || false || false) = true → userInput 7 ['h', 'i'] ≠ []))) :=
  ⟨by decide,
    c7_amended_dispatch 7 emptyHist ⟨false, false, false, false, 2, ['h', 'i']⟩
      (fun _ => Except.ok ['o', 'k']) _ (by decide)⟩

theorem rolesOK_nil : rolesOK emptyHist :=
  fun p hp => absurd hp (List.not_mem_nil p)

theorem rolesOK_tail {p : Nat × List Msg} {rest : List (Nat × List Msg)}
    (hs : rolesOK (p :: rest)) : rolesOK rest :=
  fun q hq => hs q (List.mem_cons_of_mem _ hq)

theorem lookupH_mem {s : HistState} {ch : Nat} {v : List Msg}
    (h : lookupH s ch = some v) : (ch, v) ∈ s := by
  induction s with
  | nil => exact absurd h (by simp [lookupH])
  | cons p rest ih =>
    simp only [lookupH] at h
    by_cases hk : p.1 = ch
    · rw [if_pos hk] at h
      have hv := Option.some.inj h
      have : (ch, v) = p := by
        cases p
        simp_all
      rw [this]
      exact List.mem_cons_self _ _
    · rw [if_neg hk] at h
      exact List.mem_cons_of_mem _ (ih h)

theorem rolesOK_obs {s : HistState} (ch : Nat) (hs : rolesOK s) :
    ∀ m ∈ obs s ch, m.role = "user" ∨ m.role = "assistant" := by
  unfold obs
  cases h : lookupH s ch with
  | none => simp
  | some v =>
    intro m hm
    exact hs (ch, v) (lookupH_mem h) m hm

theorem rolesOK_get_history_fst {s : HistState} (ch : Nat) (hs : rolesOK s) :
    rolesOK (get_history s ch).1 := by
  unfold get_history
  cases h : lookupH s ch with
  | some v => exact hs
  | none =>
    intro p hp
    rcases List.mem_append.mp hp with h1 | h1
    · exact hs p h1
    · rw [List.mem_singleton.mp h1]
      intro m hm
      exact absurd hm (List.not_mem_nil m)

theorem rolesOK_histUpdate {s : HistState} {v : List Msg} (ch : Nat) (hs : rolesOK s)
    (hv : ∀ m ∈ v, m.role = "user" ∨ m.role = "assistant") :
    rolesOK (histUpdate s ch v) := by
  induction s with
  | nil => exact rolesOK_nil
  | cons p rest ih =>
    simp only [histUpdate]
    by_cases hk : p.1 = ch
    · rw [if_pos hk]
      intro q hq
      rcases List.mem_cons.mp hq with h1 | h1
      · rw [h1]
        exact hv
      · exact hs q (List.mem_cons_of_mem _ h1)
    · rw [if_neg hk]
      intro q hq
      rcases List.mem_cons.mp hq with h1 | h1
      · rw [h1]
        exact hs p (List.mem_cons_self _ _)
      · exact ih (rolesOK_tail hs) q h1

theorem rolesOK_add_to_history {s : HistState} {role : String} (ch : Nat) (content : List Char)
    (hs : rolesOK s) (hrole : role = "user" ∨ role = "assistant") :
    rolesOK (add_to_history s ch role content) := by
  show rolesOK (histUpdate (get_history s ch).1 ch
    (dequeAppend (get_history s ch).2 ⟨role, content⟩))
  refine rolesOK_histUpdate ch (rolesOK_get_history_fst ch hs) ?_
  intro m hm
  have hm' : m ∈ (get_history s ch).2 ++ [⟨role, content⟩] := List.mem_of_mem_drop hm
  rcases List.mem_append.mp hm' with h1 | h1
  · rw [get_history_snd] at h1
    exact rolesOK_obs ch hs m h1
  · rw [List.mem_singleton.mp h1]
    exact hrole

theorem on_message_rolesOK {botId : Nat} {s : HistState} {ev : MessageEvent} {call : ApiCall}
    {r : OnMessageResult} (hs : rolesOK s) (hr : on_message botId s ev call = some r) :
    rolesOK r.hist := by
  unfold on_message at hr
  by_cases hb : ev.authorIsBot = true
  · rw [if_pos hb] at hr
    have hr' := Option.some.inj hr
    subst hr'
    exact hs
  · rw [if_neg hb] at hr
    by_cases htr : (ev.mentionsBot || ev.isDM || ev.isReplyToBot) = true
    · rw [if_pos htr] at hr
      by_cases hi : userInput botId ev.content = []
      · simp only [if_pos hi] at hr
        have hr' := Option.some.inj hr
        subst hr'
        exact hs
      · simp only [if_neg hi] at hr
        cases hs2 : split_message (generate_response
            (get_history (add_to_history s ev.channelId "user" (userInput botId ev.content))
              ev.channelId).2 call) 1900 with
        | none =>
          rw [hs2] at hr
          exact absurd hr (by simp)
        | some chunks =>
          rw [hs2] at hr
          have hr' := Option.some.inj hr
          subst hr'
          exact rolesOK_add_to_history _ _
            (rolesOK_get_history_fst _ (rolesOK_add_to_history _ _ hs (Or.inl rfl)))
            (Or.inr rfl)
    · rw [if_neg htr] at hr
      have hr' := Option.some.inj hr
      subst hr'
      exact hs

theorem processEvents_rolesOK (botId : Nat) :
    ∀ (evs : List (MessageEvent × ApiCall)) (s s' : HistState), rolesOK s →
      processEvents botId s evs = some s' → rolesOK s' := by
  intro evs
  induction evs with
  | nil =>
    intro s s' hs h
    have := Option.some.inj h
    subst this
    exact hs
  | cons p rest ih =>
    intro s s' hs h
    simp only [processEvents] at h
    cases hm : on_message botId s p.1 p.2 with
    | none =>
      rw [hm] at h
      exact absurd h (by simp)
    | some r =>
      rw [hm] at h
      exact ih _ _ (on_message_rolesOK hs hm) h

/-- Claim C10: every entry ever stored in any channel's history has role
`user` or `assistant`; the `system` message exists only in the request
assembled for the completion API — it is prepended in front of the history
and never appended to the stored history. -/
theorem c10_roles_invariant (botId : Nat) (evs : List (MessageEvent × ApiCall))
    (s' : HistState) (h : processEvents botId emptyHist evs = some s') :
    rolesOK s'
  ∧ (∀ hist : List Msg, requestMessages hist = system_msg :: hist)
  ∧ system_msg.role = "system" :=
  ⟨processEvents_rolesOK botId evs emptyHist s' rolesOK_nil h, fun _ => rfl, rfl⟩

/-- Witness for C10 on a concrete session: one eligible message whose API
call fails; the stored roles are `user` and `assistant` only. -/
theorem c10_roles_invariant_witness :
    processEvents 7 emptyHist
        [(⟨false, true, false, false, 3, "<@7> hello".toList⟩,
          fun _ => Except.error "boom".toList)]
      = some [(3, [⟨"user", "hello".toList⟩, ⟨"assistant", errorTemplate "boom".toList⟩])]
  ∧ rolesOK [(3, [⟨"user", "hello".toList⟩, ⟨"assistant", errorTemplate "boom".toList⟩])]
  ∧ requestMessages [] = [system_msg]
  ∧ system_msg.role = "system" :=
  ⟨by decide,
    (c10_roles_invariant 7
      [(⟨false, true, false, false, 3, "<@7> hello".toList⟩,
        fun _ => Except.error "boom".toList)]
      [(3, [⟨"user", "hello".toList⟩, ⟨"assistant", errorTemplate "boom".toList⟩])]
      (by decide)).1,
    (c10_roles_invariant 7 [] emptyHist (by decide)).2.1 [],
    (c10_roles_invariant 7 [] emptyHist (by decide)).2.2⟩

end DiscordBot
